import Mathlib

/-!
Verification of the aggregation core of `olympics_nhl_points.py`.

The development shallowly embeds the pure parts of the script:
  - `normalize_name` (source lines 44-61),
  - the per-country merge building the source-stats map (lines 344-362),
  - the aggregation loop over the stats map (lines 371-399),
  - the stable descending sort ranking teams (lines 406-411).

Python strings are modelled as `List Char`; Python dicts (insertion ordered,
unique keys) are modelled as association lists where a fresh key is appended
at the end and an existing key is updated in place.  The Unicode database
calls (`unicodedata.normalize('NFD', .)`, `unicodedata.category`, `str.lower`,
`str.split` whitespace classification) are modelled by finite tables that are
faithful to the real Unicode data on the Latin repertoire they cover.
-/

/-- Lookup in an association list, returning the first binding of `k`.
Models Python `d.get(k)` / `k in d`. -/
def alookup {α β : Type} [DecidableEq α] (k : α) : List (α × β) → Option β
  | [] => none
  | (k', v) :: rest => if k' = k then some v else alookup k rest

/-- Update the first binding of `k` in place, leaving other bindings alone.
Models Python `d[k] = f(d[k])` when `k` is already present. -/
def aupdate {α β : Type} [DecidableEq α] (k : α) (f : β → β) :
    List (α × β) → List (α × β)
  | [] => []
  | (k', v) :: rest =>
      if k' = k then (k', f v) :: rest else (k', v) :: aupdate k f rest

theorem alookup_append {α β : Type} [DecidableEq α] (k : α)
    (l₁ l₂ : List (α × β)) :
    alookup k (l₁ ++ l₂) = ((alookup k l₁).rec (alookup k l₂) (fun v => some v)) := by
  induction l₁ with
  | nil => simp [alookup]
  | cons hd tl ih =>
      obtain ⟨k', v⟩ := hd
      by_cases h : k' = k <;> simp [alookup, h, ih]

theorem alookup_append_left {α β : Type} [DecidableEq α] (k : α)
    {l₁ : List (α × β)} (l₂ : List (α × β)) {v : β}
    (h : alookup k l₁ = some v) : alookup k (l₁ ++ l₂) = some v := by
  rw [alookup_append, h]

theorem alookup_append_right {α β : Type} [DecidableEq α] (k : α)
    {l₁ : List (α × β)} (l₂ : List (α × β))
    (h : alookup k l₁ = none) : alookup k (l₁ ++ l₂) = alookup k l₂ := by
  rw [alookup_append, h]

theorem alookup_aupdate_self {α β : Type} [DecidableEq α] (k : α) (f : β → β)
    (l : List (α × β)) :
    alookup k (aupdate k f l) = (alookup k l).map f := by
  induction l with
  | nil => simp [alookup, aupdate]
  | cons hd tl ih =>
      obtain ⟨k', v⟩ := hd
      by_cases h : k' = k <;> simp [alookup, aupdate, h, ih]

theorem alookup_aupdate_other {α β : Type} [DecidableEq α] {k k' : α}
    (hne : k' ≠ k) (f : β → β) (l : List (α × β)) :
    alookup k (aupdate k' f l) = alookup k l := by
  induction l with
  | nil => simp [alookup, aupdate]
  | cons hd tl ih =>
      obtain ⟨k₀, v⟩ := hd
      by_cases h : k₀ = k'
      · subst h
        simp [alookup, aupdate, hne]
      · by_cases h2 : k₀ = k <;> simp [alookup, aupdate, h, h2, ih, Ne.symm hne]

theorem aupdate_map_fst {α β : Type} [DecidableEq α] (k : α) (f : β → β)
    (l : List (α × β)) : (aupdate k f l).map Prod.fst = l.map Prod.fst := by
  induction l with
  | nil => rfl
  | cons hd tl ih =>
      obtain ⟨k', v⟩ := hd
      by_cases h : k' = k <;> simp [aupdate, h, ih]

theorem alookup_eq_none_iff {α β : Type} [DecidableEq α] (k : α)
    (l : List (α × β)) : alookup k l = none ↔ k ∉ l.map Prod.fst := by
  induction l with
  | nil => simp [alookup]
  | cons hd tl ih =>
      obtain ⟨k', v⟩ := hd
      by_cases h : k' = k
      · subst h
        simp [alookup]
      · simp [alookup, h, ih, Ne.symm h]

theorem mem_of_alookup_eq_some {α β : Type} [DecidableEq α] {k : α}
    {l : List (α × β)} {v : β} (h : alookup k l = some v) : (k, v) ∈ l := by
  induction l with
  | nil => simp [alookup] at h
  | cons hd tl ih =>
      obtain ⟨k', w⟩ := hd
      by_cases hk : k' = k
      · subst hk
        simp [alookup] at h
        simp [h]
      · simp [alookup, hk] at h
        exact List.mem_cons_of_mem _ (ih h)

theorem alookup_eq_some_of_mem {α β : Type} [DecidableEq α] {k : α}
    {l : List (α × β)} {v : β} (hnd : (l.map Prod.fst).Nodup)
    (h : (k, v) ∈ l) : alookup k l = some v := by
  induction l with
  | nil => simp at h
  | cons hd tl ih =>
      obtain ⟨k', w⟩ := hd
      simp only [List.map_cons, List.nodup_cons] at hnd
      rcases List.mem_cons.mp h with h1 | h1
      · obtain ⟨h2, h3⟩ := Prod.mk.inj h1
        subst h2
        subst h3
        simp [alookup]
      · have hk : k' ≠ k := by
          intro he
          exact hnd.1 (by rw [he]; exact List.mem_map.mpr ⟨(k, v), h1, rfl⟩)
        simp [alookup, hk, ih hnd.2 h1]

theorem mem_aupdate {α β : Type} [DecidableEq α] {k : α} {f : β → β}
    {l : List (α × β)} {p : α × β} (h : p ∈ aupdate k f l) :
    p ∈ l ∨ ∃ v, (k, v) ∈ l ∧ p = (k, f v) := by
  induction l with
  | nil => simp [aupdate] at h
  | cons hd tl ih =>
      obtain ⟨k', v⟩ := hd
      by_cases hk : k' = k
      · subst hk
        simp [aupdate] at h
        rcases h with h | h
        · exact Or.inr ⟨v, List.mem_cons_self .., h⟩
        · exact Or.inl (List.mem_cons_of_mem _ h)
      · simp [aupdate, hk] at h
        rcases h with h | h
        · exact Or.inl (h ▸ List.mem_cons_self ..)
        · rcases ih h with h1 | ⟨w, hw, hp⟩
          · exact Or.inl (List.mem_cons_of_mem _ h1)
          · exact Or.inr ⟨w, List.mem_cons_of_mem _ hw, hp⟩

/-! ### Unicode character data

Finite models of the Unicode database functions the script calls.  Each table
is faithful to the real Unicode character data on the characters it lists. -/

/-- Canonical (NFD) decompositions of the precomposed Latin letters in the
modelled repertoire; every other character is NFD-stable.  Models
`unicodedata.normalize('NFD', s)` applied characterwise.  Decompositions are
taken from UnicodeData.txt: base letter followed by the combining mark. -/
def nfdTable : List (Char × List Char) :=
  [ ('á', ['a', '́']), ('Á', ['A', '́']),
    ('é', ['e', '́']), ('É', ['E', '́']),
    ('í', ['i', '́']), ('Í', ['I', '́']),
    ('ó', ['o', '́']), ('Ó', ['O', '́']),
    ('ú', ['u', '́']), ('Ú', ['U', '́']),
    ('ý', ['y', '́']), ('Ý', ['Y', '́']),
    ('à', ['a', '̀']), ('À', ['A', '̀']),
    ('è', ['e', '̀']), ('È', ['E', '̀']),
    ('ì', ['i', '̀']), ('Ì', ['I', '̀']),
    ('ò', ['o', '̀']), ('Ò', ['O', '̀']),
    ('ù', ['u', '̀']), ('Ù', ['U', '̀']),
    ('ä', ['a', '̈']), ('Ä', ['A', '̈']),
    ('ë', ['e', '̈']), ('Ë', ['E', '̈']),
    ('ï', ['i', '̈']), ('Ï', ['I', '̈']),
    ('ö', ['o', '̈']), ('Ö', ['O', '̈']),
    ('ü', ['u', '̈']), ('Ü', ['U', '̈']),
    ('â', ['a', '̂']), ('Â', ['A', '̂']),
    ('ê', ['e', '̂']), ('Ê', ['E', '̂']),
    ('î', ['i', '̂']), ('Î', ['I', '̂']),
    ('ô', ['o', '̂']), ('Ô', ['O', '̂']),
    ('û', ['u', '̂']), ('Û', ['U', '̂']),
    ('ã', ['a', '̃']), ('Ã', ['A', '̃']),
    ('ñ', ['n', '̃']), ('Ñ', ['N', '̃']),
    ('õ', ['o', '̃']), ('Õ', ['O', '̃']),
    ('č', ['c', '̌']), ('Č', ['C', '̌']),
    ('š', ['s', '̌']), ('Š', ['S', '̌']),
    ('ž', ['z', '̌']), ('Ž', ['Z', '̌']),
    ('ř', ['r', '̌']), ('Ř', ['R', '̌']),
    ('å', ['a', '̊']), ('Å', ['A', '̊']) ]

/-- Characterwise NFD decomposition. -/
def nfdDecomp (c : Char) : List Char := (alookup c nfdTable).getD [c]

/-- Unicode general-category test `category(c) == 'Mn'` (nonspacing combining
mark); in the modelled repertoire every Mn character lies in the Combining
Diacritical Marks block U+0300..U+036F. -/
def isMn (c : Char) : Bool := 0x0300 ≤ c.toNat && c.toNat ≤ 0x036F

/-- Lowercase mapping of `str.lower()` on the modelled repertoire: the ASCII
letters together with the precomposed accented capitals of `nfdTable`. -/
def lowerTable : List (Char × Char) :=
  [ ('A', 'a'), ('B', 'b'), ('C', 'c'), ('D', 'd'), ('E', 'e'), ('F', 'f'),
    ('G', 'g'), ('H', 'h'), ('I', 'i'), ('J', 'j'), ('K', 'k'), ('L', 'l'),
    ('M', 'm'), ('N', 'n'), ('O', 'o'), ('P', 'p'), ('Q', 'q'), ('R', 'r'),
    ('S', 's'), ('T', 't'), ('U', 'u'), ('V', 'v'), ('W', 'w'), ('X', 'x'),
    ('Y', 'y'), ('Z', 'z'),
    ('Á', 'á'), ('É', 'é'), ('Í', 'í'), ('Ó', 'ó'), ('Ú', 'ú'), ('Ý', 'ý'),
    ('À', 'à'), ('È', 'è'), ('Ì', 'ì'), ('Ò', 'ò'), ('Ù', 'ù'),
    ('Ä', 'ä'), ('Ë', 'ë'), ('Ï', 'ï'), ('Ö', 'ö'), ('Ü', 'ü'),
    ('Â', 'â'), ('Ê', 'ê'), ('Î', 'î'), ('Ô', 'ô'), ('Û', 'û'),
    ('Ã', 'ã'), ('Ñ', 'ñ'), ('Õ', 'õ'),
    ('Č', 'č'), ('Š', 'š'), ('Ž', 'ž'), ('Ř', 'ř'), ('Å', 'å') ]

/-- Characterwise lowercasing. -/
def lowerChar (c : Char) : Char := (alookup c lowerTable).getD c

/-- Python `str.isspace` whitespace classification (the classes `str.split()`
splits on), restricted to the Latin-1 range: tab through carriage return,
the information separators, space, next-line and no-break space. -/
def isWs (c : Char) : Bool :=
  (9 ≤ c.toNat && c.toNat ≤ 13) || (28 ≤ c.toNat && c.toNat ≤ 32) ||
    c.toNat = 0x85 || c.toNat = 0xA0

/-- Helper of `splitWs`: accumulates the current word (reversed) while
scanning.  A whitespace character closes the current word (if nonempty);
the word list carries no empty words. -/
def splitWsAux : List Char → List Char → List (List Char)
  | [], acc => if acc.isEmpty then [] else [acc.reverse]
  | c :: cs, acc =>
      if isWs c then
        if acc.isEmpty then splitWsAux cs [] else acc.reverse :: splitWsAux cs []
      else splitWsAux cs (c :: acc)

/-- Python `s.split()` with no separator: split on runs of whitespace,
dropping empty words (hence leading/trailing whitespace). -/
def splitWs (s : List Char) : List (List Char) := splitWsAux s []

/-- Python `' '.join(words)`. -/
def joinWords : List (List Char) → List Char
  | [] => []
  | [w] => w
  | w :: ws => w ++ ' ' :: joinWords ws

/-- Embedding of `normalize_name` (source lines 44-61):
NFD-decompose, drop characters whose category is Mn, then
`' '.join(name.lower().split())`. -/
def normalize_name (name : List Char) : List Char :=
  let decomposed := (name.map nfdDecomp).flatten
  let stripped := decomposed.filter (fun c => !(isMn c))
  joinWords (splitWs (stripped.map lowerChar))

example : normalize_name ("Léo Dubé").toList = ("leo dube").toList := by decide
example : normalize_name ("LEO DUBE").toList = ("leo dube").toList := by decide
example : normalize_name ("leo   dube").toList = ("leo dube").toList := by decide

/-! ### Data model

`Key` models a NormalizedKey.  Raw scraper records carry the display name and
the goal/assist tallies; the merged stats entry mirrors the dict literal built
at source lines 354-358. -/

/-- A NormalizedKey. -/
abbrev Key := List Char

/-- A raw per-nation scraper record (the fields the merge loop reads). -/
structure RawPlayer where
  name : List Char
  goals : Nat
  assists : Nat
deriving DecidableEq

/-- A merged SourceStatsMap entry (source lines 354-358). -/
structure StatsEntry where
  name : List Char
  goals : Nat
  assists : Nat
deriving DecidableEq

/-- A player record appended to a franchise's player list
(source lines 388-393). -/
structure PlayerOut where
  name : List Char
  goals : Nat
  assists : Nat
  points : Nat
deriving DecidableEq

/-- A record appended to the unmatched list (source lines 395-399). -/
structure UnmatchedPlayer where
  name : List Char
  goals : Nat
  assists : Nat
deriving DecidableEq

/-- A FranchiseAggregate (the defaultdict value at source lines 371-376). -/
structure TeamStats where
  points : Nat
  goals : Nat
  assists : Nat
  players : List PlayerOut
deriving DecidableEq

/-- The defaultdict default value (source lines 371-376). -/
def emptyTeam : TeamStats := ⟨0, 0, 0, []⟩

/-! ### Building the SourceStatsMap (source lines 344-362) -/

/-- Process one raw record into the accumulating stats dict: insert a fresh
entry under the record's normalized name, or sum goals and assists into the
existing entry (source lines 350-362). -/
def mergePlayer (m : List (Key × StatsEntry)) (p : RawPlayer) :
    List (Key × StatsEntry) :=
  let k := normalize_name p.name
  match alookup k m with
  | none => m ++ [(k, ⟨p.name, p.goals, p.assists⟩)]
  | some _ =>
      aupdate k
        (fun e => { e with goals := e.goals + p.goals,
                           assists := e.assists + p.assists }) m

/-- Fold all per-country record lists into the SourceStatsMap
(the nested loops at source lines 346-362). -/
def buildSourceStats (countries : List (List RawPlayer)) :
    List (Key × StatsEntry) :=
  countries.foldl (fun m players => players.foldl mergePlayer m) []

/-! ### Aggregation by NHL team (source lines 371-399) -/

/-- Accumulate a matched record into a team's aggregate: a first touch of the
defaultdict creates the default entry, then points/goals/assists are added and
the player record is appended (source lines 384-393). -/
def bumpTeam (e : StatsEntry) (ts : TeamStats) : TeamStats :=
  let pts := e.goals + e.assists
  { points := ts.points + pts, goals := ts.goals + e.goals,
    assists := ts.assists + e.assists,
    players := ts.players ++ [⟨e.name, e.goals, e.assists, pts⟩] }

/-- Mutate the team dict for a matched record; on first touch the defaultdict
appends the new team at the end (insertion order). -/
def addMatched (teams : List (String × TeamStats)) (team : String)
    (e : StatsEntry) : List (String × TeamStats) :=
  match alookup team teams with
  | none => teams ++ [(team, bumpTeam e emptyTeam)]
  | some _ => aupdate team (bumpTeam e) teams

/-- State of the aggregation loop: the team dict and the unmatched list. -/
structure AggState where
  teams : List (String × TeamStats)
  unmatched : List UnmatchedPlayer
deriving DecidableEq

/-- One iteration of the aggregation loop (source lines 380-399).  Python's
`if nhl_team:` is falsy both for a missing key (`None`) and for an empty
string, so both cases append to the unmatched list. -/
def aggStep (roster : List (Key × String)) (st : AggState)
    (kv : Key × StatsEntry) : AggState :=
  match alookup kv.1 roster with
  | some team =>
      if team = "" then
        { st with unmatched :=
            st.unmatched ++ [⟨kv.2.name, kv.2.goals, kv.2.assists⟩] }
      else { st with teams := addMatched st.teams team kv.2 }
  | none =>
      { st with unmatched :=
          st.unmatched ++ [⟨kv.2.name, kv.2.goals, kv.2.assists⟩] }

/-- The loop over `all_player_stats.items()` (source lines 380-399). -/
def aggState (ss : List (Key × StatsEntry)) (roster : List (Key × String)) :
    AggState :=
  ss.foldl (aggStep roster) ⟨[], []⟩

/-- The sort key of a team: `(points, goals)` (source line 409). -/
def teamKey (ts : TeamStats) : Nat × Nat := (ts.points, ts.goals)

/-- Strict lexicographic order on sort keys. -/
def keyLtb (a b : Nat × Nat) : Bool :=
  a.1 < b.1 || (a.1 == b.1 && a.2 < b.2)

/-- Lexicographic order on sort keys (propositional, non-strict). -/
def keyLe (a b : Nat × Nat) : Prop :=
  a.1 < b.1 ∨ (a.1 = b.1 ∧ a.2 ≤ b.2)

/-- Insert one team into a descending-ordered list, placing it before the
first strictly smaller element: elements already in the list with an equal
key keep their earlier position. -/
def insDesc (x : String × TeamStats) :
    List (String × TeamStats) → List (String × TeamStats)
  | [] => [x]
  | y :: ys =>
      if keyLtb (teamKey x.2) (teamKey y.2) then y :: insDesc x ys
      else x :: y :: ys

/-- Stable descending insertion sort by `(points, goals)`: the model of
Python's `sorted(..., key=lambda x: (points, goals), reverse=True)`
(source lines 407-411), which is a stable sort. -/
def sortTeamsDesc : List (String × TeamStats) → List (String × TeamStats)
  | [] => []
  | x :: xs => insDesc x (sortTeamsDesc xs)

/-- The aggregation step as a whole (source lines 371-411): classify every
stats entry, then rank the team dict by `(points, goals)` descending. -/
def aggregate (ss : List (Key × StatsEntry)) (roster : List (Key × String)) :
    List (String × TeamStats) × List UnmatchedPlayer :=
  (sortTeamsDesc (aggState ss roster).teams, (aggState ss roster).unmatched)

/-! ### Specification-side partition of the source records

These definitions restate, directly as filters over the input map, where each
record should land; the classification theorems relate them to the
aggregation loop. -/

/-- The franchise a stats entry is matched to, if any: the roster image of
its key when present and truthy. -/
def classify (roster : List (Key × String)) (kv : Key × StatsEntry) :
    Option String :=
  match alookup kv.1 roster with
  | some team => if team = "" then none else some team
  | none => none

/-- The player record a matched entry contributes (source lines 388-393). -/
def toPlayerOut (e : StatsEntry) : PlayerOut :=
  ⟨e.name, e.goals, e.assists, e.goals + e.assists⟩

/-- The record an unmatched entry contributes (source lines 395-399). -/
def toUnmatched (e : StatsEntry) : UnmatchedPlayer := ⟨e.name, e.goals, e.assists⟩

/-- All records of `ss` whose key is absent from the roster (in `ss` order). -/
def unmatchedRecords (ss : List (Key × StatsEntry))
    (roster : List (Key × String)) : List UnmatchedPlayer :=
  ss.filterMap (fun kv =>
    if classify roster kv = none then some (toUnmatched kv.2) else none)

/-- All records of `ss` whose key the roster maps to franchise `t`
(in `ss` order). -/
def recordsFor (ss : List (Key × StatsEntry)) (roster : List (Key × String))
    (t : String) : List PlayerOut :=
  ss.filterMap (fun kv =>
    if classify roster kv = some t then some (toPlayerOut kv.2) else none)

/-- The player list recorded for franchise `t`. -/
def playersFor (teams : List (String × TeamStats)) (t : String) :
    List PlayerOut :=
  ((alookup t teams).getD emptyTeam).players

/-- Total number of player records across all franchise aggregates. -/
def sumPlayers (teams : List (String × TeamStats)) : Nat :=
  (teams.map (fun x => x.2.players.length)).sum

/-! ### Characterizing the SourceStatsMap merge -/

/-- The raw records of a flattened fetch result that normalize to key `k`,
in fetch order. -/
def occurrences (k : Key) (ps : List RawPlayer) : List RawPlayer :=
  ps.filter (fun p => decide (normalize_name p.name = k))

/-- Total goals of a list of raw records. -/
def sumGoals (ps : List RawPlayer) : Nat := (ps.map (fun p => p.goals)).sum

/-- Total assists of a list of raw records. -/
def sumAssists (ps : List RawPlayer) : Nat := (ps.map (fun p => p.assists)).sum

theorem alookup_append_single_other {α β : Type} [DecidableEq α] {k k' : α}
    (hne : k' ≠ k) (l : List (α × β)) (v : β) :
    alookup k (l ++ [(k', v)]) = alookup k l := by
  cases h : alookup k l with
  | some w => exact alookup_append_left _ _ h
  | none =>
      rw [alookup_append_right _ _ h]
      simp [alookup, hne]

theorem occurrences_cons (k : Key) (p : RawPlayer) (ps : List RawPlayer) :
    occurrences k (p :: ps) =
      if normalize_name p.name = k then p :: occurrences k ps
      else occurrences k ps := by
  by_cases h : normalize_name p.name = k <;> simp [occurrences, h]

/-- Characterization of the merge loop: looking up key `k` after folding a
record list into the map yields the entry already present with all matching
goals/assists summed in, or a fresh entry carrying the first matching
record's display name and the summed tallies. -/
theorem foldl_mergePlayer (k : Key) :
    ∀ (ps : List RawPlayer) (m : List (Key × StatsEntry)),
      alookup k (ps.foldl mergePlayer m) =
        match alookup k m with
        | some e =>
            some ⟨e.name, e.goals + sumGoals (occurrences k ps),
                  e.assists + sumAssists (occurrences k ps)⟩
        | none =>
            match occurrences k ps with
            | [] => none
            | p :: rest =>
                some ⟨p.name, p.goals + sumGoals rest,
                      p.assists + sumAssists rest⟩ := by
  intro ps
  induction ps with
  | nil =>
      intro m
      cases hm : alookup k m with
      | none => simp [occurrences, hm]
      | some e => simp [occurrences, sumGoals, sumAssists, hm]
  | cons p ps ih =>
      intro m
      rw [List.foldl_cons]
      by_cases hk : normalize_name p.name = k
      · cases hm : alookup k m with
        | none =>
            have hmerge : mergePlayer m p =
                m ++ [(k, ⟨p.name, p.goals, p.assists⟩)] := by
              simp only [mergePlayer, hk, hm]
            have hlk : alookup k (mergePlayer m p) =
                some ⟨p.name, p.goals, p.assists⟩ := by
              rw [hmerge, alookup_append_right _ _ hm]
              simp [alookup]
            rw [ih, hlk, occurrences_cons, if_pos hk]
        | some e =>
            have hmerge : mergePlayer m p =
                aupdate k (fun e => { e with goals := e.goals + p.goals,
                                             assists := e.assists + p.assists }) m := by
              simp only [mergePlayer, hk, hm]
            have hlk : alookup k (mergePlayer m p) =
                some ⟨e.name, e.goals + p.goals, e.assists + p.assists⟩ := by
              rw [hmerge, alookup_aupdate_self, hm]
              rfl
            rw [ih, hlk, occurrences_cons, if_pos hk]
            simp [sumGoals, sumAssists, Nat.add_assoc]
      · have hmerge : alookup k (mergePlayer m p) = alookup k m := by
          simp only [mergePlayer]
          cases hm' : alookup (normalize_name p.name) m with
          | none => exact alookup_append_single_other hk m _
          | some e => exact alookup_aupdate_other hk _ m
        rw [ih, hmerge, occurrences_cons, if_neg hk]

/-- Folding country lists one by one is folding the flattened record list. -/
theorem buildSourceStats_eq_flatten (cs : List (List RawPlayer)) :
    buildSourceStats cs = cs.flatten.foldl mergePlayer [] := by
  unfold buildSourceStats
  generalize ([] : List (Key × StatsEntry)) = m
  induction cs generalizing m with
  | nil => rfl
  | cons c cs ih => simp [List.foldl_append, ih]

/-! ### Characterizing the aggregation loop -/

/-- One loop iteration, rephrased through the classifier. -/
theorem aggStep_classify (roster : List (Key × String)) (st : AggState)
    (kv : Key × StatsEntry) :
    aggStep roster st kv =
      match classify roster kv with
      | some t => { st with teams := addMatched st.teams t kv.2 }
      | none =>
          { st with unmatched := st.unmatched ++ [toUnmatched kv.2] } := by
  simp only [aggStep, classify, toUnmatched]
  cases h : alookup kv.1 roster with
  | none => rfl
  | some team => by_cases ht : team = "" <;> simp [ht]

theorem unmatchedRecords_cons (roster : List (Key × String))
    (kv : Key × StatsEntry) (ss : List (Key × StatsEntry)) :
    unmatchedRecords (kv :: ss) roster =
      (if classify roster kv = none then [toUnmatched kv.2] else []) ++
        unmatchedRecords ss roster := by
  by_cases h : classify roster kv = none <;>
    simp [unmatchedRecords, List.filterMap_cons, h]

theorem recordsFor_cons (roster : List (Key × String)) (kv : Key × StatsEntry)
    (ss : List (Key × StatsEntry)) (t : String) :
    recordsFor (kv :: ss) roster t =
      (if classify roster kv = some t then [toPlayerOut kv.2] else []) ++
        recordsFor ss roster t := by
  by_cases h : classify roster kv = some t <;>
    simp [recordsFor, List.filterMap_cons, h]

/-- The unmatched list after the loop is exactly the unmatched records of the
processed entries, in order. -/
theorem foldl_unmatched (roster : List (Key × String))
    (rest : List (Key × StatsEntry)) :
    ∀ st : AggState,
      (rest.foldl (aggStep roster) st).unmatched =
        st.unmatched ++ unmatchedRecords rest roster := by
  induction rest with
  | nil =>
      intro st
      simp [unmatchedRecords]
  | cons kv rest ih =>
      intro st
      rw [List.foldl_cons, ih, aggStep_classify, unmatchedRecords_cons]
      cases hc : classify roster kv with
      | none => simp [hc]
      | some t => simp [hc]

/-- Appending a matched record extends exactly its own team's player list. -/
theorem playersFor_addMatched_self (teams : List (String × TeamStats))
    (team : String) (e : StatsEntry) :
    playersFor (addMatched teams team e) team =
      playersFor teams team ++ [toPlayerOut e] := by
  unfold addMatched playersFor
  cases h : alookup team teams with
  | none =>
      rw [alookup_append_right _ _ h]
      simp [alookup, bumpTeam, emptyTeam, toPlayerOut]
  | some v =>
      rw [alookup_aupdate_self, h]
      simp [bumpTeam, toPlayerOut]

/-- Appending a matched record leaves every other team's player list alone. -/
theorem playersFor_addMatched_other (teams : List (String × TeamStats))
    {team t : String} (hne : team ≠ t) (e : StatsEntry) :
    playersFor (addMatched teams team e) t = playersFor teams t := by
  unfold addMatched playersFor
  cases h : alookup team teams with
  | none => rw [alookup_append_single_other hne]
  | some v => rw [alookup_aupdate_other hne]

/-- The player list built for each franchise is exactly the matched records
that classify to it, in map order. -/
theorem foldl_playersFor (roster : List (Key × String))
    (rest : List (Key × StatsEntry)) :
    ∀ (st : AggState) (t : String),
      playersFor (rest.foldl (aggStep roster) st).teams t =
        playersFor st.teams t ++ recordsFor rest roster t := by
  induction rest with
  | nil =>
      intro st t
      simp [recordsFor]
  | cons kv rest ih =>
      intro st t
      rw [List.foldl_cons, ih, aggStep_classify, recordsFor_cons]
      cases hc : classify roster kv with
      | none => simp
      | some t0 =>
          by_cases ht : t0 = t
          · subst ht
            simp [playersFor_addMatched_self]
          · simp [ht, playersFor_addMatched_other _ ht]

/-- First touches append fresh keys, so team keys stay duplicate-free. -/
theorem addMatched_nodup {teams : List (String × TeamStats)}
    (hnd : (teams.map Prod.fst).Nodup) (team : String) (e : StatsEntry) :
    ((addMatched teams team e).map Prod.fst).Nodup := by
  unfold addMatched
  cases h : alookup team teams with
  | none =>
      have hmem : team ∉ teams.map Prod.fst := (alookup_eq_none_iff _ _).mp h
      simp [List.nodup_append, hnd, hmem]
  | some v => rw [aupdate_map_fst]; exact hnd

theorem foldl_nodup (roster : List (Key × String))
    (rest : List (Key × StatsEntry)) :
    ∀ st : AggState, (st.teams.map Prod.fst).Nodup →
      (((rest.foldl (aggStep roster) st).teams).map Prod.fst).Nodup := by
  induction rest with
  | nil => intro st h; exact h
  | cons kv rest ih =>
      intro st h
      rw [List.foldl_cons, aggStep_classify]
      cases hc : classify roster kv with
      | none => exact ih _ h
      | some t => exact ih _ (addMatched_nodup h t kv.2)

theorem sumPlayers_aupdate_bump (e : StatsEntry) :
    ∀ (teams : List (String × TeamStats)) (team : String) (v : TeamStats),
      alookup team teams = some v →
      sumPlayers (aupdate team (bumpTeam e) teams) = sumPlayers teams + 1 := by
  intro teams
  induction teams with
  | nil => intro team v h; simp [alookup] at h
  | cons hd tl ih =>
      intro team v h
      obtain ⟨k', w⟩ := hd
      by_cases hk : k' = team
      · subst hk
        simp [aupdate, sumPlayers, bumpTeam]
        omega
      · simp [alookup, hk] at h
        simp [aupdate, hk, sumPlayers] at ih ⊢
        rw [ih team v h]
        omega

/-- Each matched record adds exactly one player record overall. -/
theorem sumPlayers_addMatched (teams : List (String × TeamStats))
    (team : String) (e : StatsEntry) :
    sumPlayers (addMatched teams team e) = sumPlayers teams + 1 := by
  unfold addMatched
  cases h : alookup team teams with
  | none => simp [sumPlayers, bumpTeam, emptyTeam]
  | some v => exact sumPlayers_aupdate_bump e teams team v h

/-- Every record is counted exactly once across the two outputs. -/
theorem foldl_count (roster : List (Key × String))
    (rest : List (Key × StatsEntry)) :
    ∀ st : AggState,
      sumPlayers (rest.foldl (aggStep roster) st).teams +
          (rest.foldl (aggStep roster) st).unmatched.length =
        sumPlayers st.teams + st.unmatched.length + rest.length := by
  induction rest with
  | nil => intro st; simp
  | cons kv rest ih =>
      intro st
      rw [List.foldl_cons, ih, aggStep_classify]
      cases hc : classify roster kv with
      | none => simp; omega
      | some t => simp [sumPlayers_addMatched]; omega

/-- The per-team bookkeeping invariant of claim C2: stored totals are the
sums over the stored player list, and each stored player's points field is
its goals plus assists. -/
def teamSumsOk (teams : List (String × TeamStats)) : Prop :=
  ∀ t s, (t, s) ∈ teams →
    s.points = (s.players.map (fun p => p.goals + p.assists)).sum ∧
    s.goals = (s.players.map (fun p => p.goals)).sum ∧
    s.assists = (s.players.map (fun p => p.assists)).sum ∧
    ∀ p ∈ s.players, p.points = p.goals + p.assists

theorem teamSumsOk_bumpTeam {s : TeamStats} (e : StatsEntry)
    (h1 : s.points = (s.players.map (fun p => p.goals + p.assists)).sum)
    (h2 : s.goals = (s.players.map (fun p => p.goals)).sum)
    (h3 : s.assists = (s.players.map (fun p => p.assists)).sum)
    (h4 : ∀ p ∈ s.players, p.points = p.goals + p.assists) :
    (bumpTeam e s).points =
        ((bumpTeam e s).players.map (fun p => p.goals + p.assists)).sum ∧
    (bumpTeam e s).goals =
        ((bumpTeam e s).players.map (fun p => p.goals)).sum ∧
    (bumpTeam e s).assists =
        ((bumpTeam e s).players.map (fun p => p.assists)).sum ∧
    ∀ p ∈ (bumpTeam e s).players, p.points = p.goals + p.assists := by
  refine ⟨?_, ?_, ?_, ?_⟩ <;> simp [bumpTeam, h1, h2, h3]
  intro p hp
  rcases hp with hp | hp
  · exact h4 p hp
  · simp [hp]

theorem teamSumsOk_addMatched {teams : List (String × TeamStats)}
    (hinv : teamSumsOk teams) (team : String) (e : StatsEntry) :
    teamSumsOk (addMatched teams team e) := by
  unfold addMatched
  cases h : alookup team teams with
  | none =>
      intro t s hmem
      rcases List.mem_append.mp hmem with hold | hnew
      · exact hinv t s hold
      · simp at hnew
        obtain ⟨ht, hs⟩ := hnew
        subst hs
        simp [bumpTeam, emptyTeam]
  | some v =>
      intro t s hmem
      rcases mem_aupdate hmem with hold | ⟨w, hw, hp⟩
      · exact hinv t s hold
      · obtain ⟨h1, h2, h3, h4⟩ := hinv team w hw
        obtain ⟨hpt, hps⟩ := Prod.mk.inj hp
        subst hpt
        subst hps
        exact teamSumsOk_bumpTeam e h1 h2 h3 h4

theorem foldl_teamSumsOk (roster : List (Key × String))
    (rest : List (Key × StatsEntry)) :
    ∀ st : AggState, teamSumsOk st.teams →
      teamSumsOk (rest.foldl (aggStep roster) st).teams := by
  induction rest with
  | nil => intro st h; exact h
  | cons kv rest ih =>
      intro st h
      rw [List.foldl_cons, aggStep_classify]
      cases hc : classify roster kv with
      | none => exact ih _ h
      | some t => exact ih _ (teamSumsOk_addMatched h t kv.2)

/-! ### The stable descending sort -/

/-- Descending-rank relation on ranked entries: the earlier entry's
`(points, goals)` is lexicographically at least the later one's. -/
def rankGe (a b : String × TeamStats) : Prop :=
  keyLe (teamKey b.2) (teamKey a.2)

theorem keyLe_of_keyLtb_true {a b : Nat × Nat} (h : keyLtb a b = true) :
    keyLe a b := by
  simp [keyLtb] at h
  unfold keyLe
  omega

theorem keyLe_of_keyLtb_false {a b : Nat × Nat} (h : keyLtb a b = false) :
    keyLe b a := by
  simp [keyLtb] at h
  unfold keyLe
  omega

theorem keyLtb_irrefl (a : Nat × Nat) : keyLtb a a = false := by
  simp [keyLtb]

theorem insDesc_perm (x : String × TeamStats) (l : List (String × TeamStats)) :
    (insDesc x l).Perm (x :: l) := by
  induction l with
  | nil => simp [insDesc]
  | cons y ys ih =>
      unfold insDesc
      by_cases hb : keyLtb (teamKey x.2) (teamKey y.2) = true
      · simp only [hb, if_true]
        exact (ih.cons y).trans (List.Perm.swap x y ys)
      · simp only [Bool.not_eq_true] at hb
        simp [hb]
  
theorem sortTeamsDesc_perm (l : List (String × TeamStats)) :
    (sortTeamsDesc l).Perm l := by
  induction l with
  | nil => simp [sortTeamsDesc]
  | cons x xs ih => exact (insDesc_perm x (sortTeamsDesc xs)).trans (ih.cons x)

theorem insDesc_head (x : String × TeamStats)
    (l : List (String × TeamStats)) :
    (insDesc x l).head? = some x ∨ (insDesc x l).head? = l.head? := by
  cases l with
  | nil => left; rfl
  | cons y ys =>
      unfold insDesc
      by_cases hb : keyLtb (teamKey x.2) (teamKey y.2) = true
      · right; simp [hb]
      · left; simp only [Bool.not_eq_true] at hb; simp [hb]

/-- Inserting into a descending chain keeps it a descending chain. -/
theorem insDesc_chain (x : String × TeamStats) :
    ∀ l : List (String × TeamStats), List.Chain' rankGe l →
      List.Chain' rankGe (insDesc x l) := by
  intro l
  induction l with
  | nil => intro _; simp [insDesc]
  | cons y ys ih =>
      intro h
      rw [List.chain'_cons'] at h
      obtain ⟨hy, hys⟩ := h
      unfold insDesc
      by_cases hb : keyLtb (teamKey x.2) (teamKey y.2) = true
      · simp only [hb, if_true]
        rw [List.chain'_cons']
        refine ⟨?_, ih hys⟩
        intro z hz
        rcases insDesc_head x ys with hh | hh
        · rw [hh] at hz
          simp at hz
          subst hz
          exact keyLe_of_keyLtb_true hb
        · rw [hh] at hz
          exact hy z hz
      · simp only [Bool.not_eq_true] at hb
        simp only [hb, if_false, Bool.false_eq_true]
        rw [List.chain'_cons']
        refine ⟨?_, List.chain'_cons'.mpr ⟨hy, hys⟩⟩
        intro z hz
        simp at hz
        subst hz
        exact keyLe_of_keyLtb_false hb

/-- The ranked list is sorted non-increasingly by `(points, goals)`. -/
theorem sortTeamsDesc_chain (l : List (String × TeamStats)) :
    List.Chain' rankGe (sortTeamsDesc l) := by
  induction l with
  | nil => simp [sortTeamsDesc]
  | cons x xs ih => exact insDesc_chain x (sortTeamsDesc xs) ih

/-- Stability of the insertion: among entries of any fixed sort key, the
inserted element lands last, every earlier-inserted equal-key entry keeps
its position. -/
theorem filter_insDesc (K : Nat × Nat) (x : String × TeamStats) :
    ∀ l : List (String × TeamStats),
      (insDesc x l).filter (fun y => decide (teamKey y.2 = K)) =
        if teamKey x.2 = K then
          x :: l.filter (fun y => decide (teamKey y.2 = K))
        else l.filter (fun y => decide (teamKey y.2 = K)) := by
  intro l
  induction l with
  | nil =>
      by_cases hx : teamKey x.2 = K <;> simp [insDesc, hx]
  | cons y ys ih =>
      unfold insDesc
      by_cases hb : keyLtb (teamKey x.2) (teamKey y.2) = true
      · simp only [hb, if_true]
        by_cases hx : teamKey x.2 = K
        · have hy : ¬ teamKey y.2 = K := by
            intro hyK
            rw [hx] at hb
            rw [hyK] at hb
            rw [keyLtb_irrefl] at hb
            exact Bool.false_ne_true hb
          simp [List.filter_cons, hy, ih, hx]
        · by_cases hy : teamKey y.2 = K <;>
            simp [List.filter_cons, hy, ih, hx]
      · simp only [Bool.not_eq_true] at hb
        simp only [hb, if_false, Bool.false_eq_true]
        by_cases hx : teamKey x.2 = K <;>
          simp [List.filter_cons, hx]

/-- Stability of the sort: for every sort key, the entries carrying that key
appear in the sorted output in exactly their original order. -/
theorem filter_sortTeamsDesc (K : Nat × Nat) :
    ∀ l : List (String × TeamStats),
      (sortTeamsDesc l).filter (fun y => decide (teamKey y.2 = K)) =
        l.filter (fun y => decide (teamKey y.2 = K)) := by
  intro l
  induction l with
  | nil => rfl
  | cons x xs ih =>
      rw [sortTeamsDesc, filter_insDesc]
      by_cases hx : teamKey x.2 = K <;> simp [List.filter_cons, hx, ih]

/-- Association-list lookup only depends on the binding set once keys are
duplicate-free, so the sort does not change any lookup. -/
theorem alookup_perm {α β : Type} [DecidableEq α] {l₁ l₂ : List (α × β)}
    (hp : l₁.Perm l₂) (hnd : (l₁.map Prod.fst).Nodup) (k : α) :
    alookup k l₁ = alookup k l₂ := by
  cases h : alookup k l₂ with
  | some v =>
      exact alookup_eq_some_of_mem hnd (hp.mem_iff.mpr (mem_of_alookup_eq_some h))
  | none =>
      rw [alookup_eq_none_iff] at h ⊢
      intro hmem
      exact h ((hp.map Prod.fst).mem_iff.mp hmem)

theorem sumPlayers_perm {l₁ l₂ : List (String × TeamStats)}
    (hp : l₁.Perm l₂) : sumPlayers l₁ = sumPlayers l₂ := by
  unfold sumPlayers
  exact (hp.map (fun x => x.2.players.length)).sum_eq

/-! ### Sanity checks of the aggregation embedding on the spec scenarios -/

example :
    aggregate [(("connor mcdavid").toList, ⟨("Connor McDavid").toList, 3, 5⟩)]
        [(("connor mcdavid").toList, "EDM")] =
      ([("EDM", ⟨8, 3, 5, [⟨("Connor McDavid").toList, 3, 5, 8⟩]⟩)], []) := by
  decide

example :
    aggregate [(("jane doe").toList, ⟨("Jane Doe").toList, 2, 1⟩)]
        [(("connor mcdavid").toList, "EDM")] =
      ([], [⟨("Jane Doe").toList, 2, 1⟩]) := by
  decide

/-! ### Claim theorems: the aggregation step -/

/-- Claim C1: every player record of the SourceStatsMap is classified exactly
once: the unmatched output is exactly the records whose key the roster does
not (truthily) map anywhere; each franchise's player list is exactly the
records whose key maps to that franchise; franchise codes appear at most once
in the ranked output; and the record count is conserved, so no record is
dropped or duplicated. -/
theorem aggregate_classifies_each_record_once (ss : List (Key × StatsEntry))
    (roster : List (Key × String)) :
    (aggregate ss roster).2 = unmatchedRecords ss roster ∧
    (∀ t, playersFor (aggregate ss roster).1 t = recordsFor ss roster t) ∧
    ((aggregate ss roster).1.map Prod.fst).Nodup ∧
    sumPlayers (aggregate ss roster).1 + (aggregate ss roster).2.length =
      ss.length := by
  have hnd : ((aggState ss roster).teams.map Prod.fst).Nodup :=
    foldl_nodup roster ss ⟨[], []⟩ (by simp)
  have hperm := sortTeamsDesc_perm (aggState ss roster).teams
  have hndIn : ((sortTeamsDesc (aggState ss roster).teams).map Prod.fst).Nodup :=
    ((hperm.map Prod.fst).nodup_iff).mpr hnd
  refine ⟨?_, ?_, ?_, ?_⟩
  · simpa [aggregate, aggState] using foldl_unmatched roster ss ⟨[], []⟩
  · intro t
    have hsort : playersFor (sortTeamsDesc (aggState ss roster).teams) t =
        playersFor (aggState ss roster).teams t := by
      unfold playersFor
      rw [alookup_perm hperm hndIn t]
    have hfold := foldl_playersFor roster ss ⟨[], []⟩ t
    simp only [aggregate]
    rw [hsort]
    simpa [aggState, playersFor, alookup, emptyTeam] using hfold
  · simpa [aggregate] using hndIn
  · have hcount := foldl_count roster ss ⟨[], []⟩
    have hsum : sumPlayers (sortTeamsDesc (aggState ss roster).teams) =
        sumPlayers (aggState ss roster).teams := sumPlayers_perm hperm
    simp only [aggregate]
    rw [hsum]
    simpa [aggState, sumPlayers] using hcount

/-- Claim C2: every franchise aggregate's points, goals and assists fields
equal the sums of goals+assists, goals, and assists over its player list
(and each stored player's points field is its goals plus assists). -/
theorem franchise_totals_are_sums (ss : List (Key × StatsEntry))
    (roster : List (Key × String)) (t : String) (s : TeamStats)
    (h : (t, s) ∈ (aggregate ss roster).1) :
    s.points = (s.players.map (fun p => p.goals + p.assists)).sum ∧
    s.goals = (s.players.map (fun p => p.goals)).sum ∧
    s.assists = (s.players.map (fun p => p.assists)).sum := by
  have hmem : (t, s) ∈ (aggState ss roster).teams := by
    have hperm := sortTeamsDesc_perm (aggState ss roster).teams
    exact hperm.mem_iff.mp (by simpa [aggregate] using h)
  have hinv : teamSumsOk (aggState ss roster).teams :=
    foldl_teamSumsOk roster ss ⟨[], []⟩ (by intro t s h; simp at h)
  obtain ⟨h1, h2, h3, _⟩ := hinv t s hmem
  exact ⟨h1, h2, h3⟩

/-- Witness for C2 at the spec's own scenario: one scorer with 3 goals and
5 assists on the Edmonton roster. -/
theorem franchise_totals_are_sums_witness :
    (⟨8, 3, 5, [⟨("Connor McDavid").toList, 3, 5, 8⟩]⟩ : TeamStats).points =
        (([⟨("Connor McDavid").toList, 3, 5, 8⟩] : List PlayerOut).map
          (fun p => p.goals + p.assists)).sum ∧
    (⟨8, 3, 5, [⟨("Connor McDavid").toList, 3, 5, 8⟩]⟩ : TeamStats).goals =
        (([⟨("Connor McDavid").toList, 3, 5, 8⟩] : List PlayerOut).map
          (fun p => p.goals)).sum ∧
    (⟨8, 3, 5, [⟨("Connor McDavid").toList, 3, 5, 8⟩]⟩ : TeamStats).assists =
        (([⟨("Connor McDavid").toList, 3, 5, 8⟩] : List PlayerOut).map
          (fun p => p.assists)).sum :=
  franchise_totals_are_sums
    [(("connor mcdavid").toList, ⟨("Connor McDavid").toList, 3, 5⟩)]
    [(("connor mcdavid").toList, "EDM")] "EDM"
    ⟨8, 3, 5, [⟨("Connor McDavid").toList, 3, 5, 8⟩]⟩ (by decide)

/-- Claim C3: the ranked franchise sequence is sorted non-increasingly by the
lexicographic pair `(points, goals)`: every adjacent pair satisfies the
descending-rank relation. -/
theorem ranked_sorted_by_points_goals (ss : List (Key × StatsEntry))
    (roster : List (Key × String)) :
    List.Chain' rankGe (aggregate ss roster).1 :=
  sortTeamsDesc_chain (aggState ss roster).teams

/-- Counterexample to claim C4: two franchises tied at the same
`(points, goals)` key are ordered by the incidental iteration order of the
stats map, not by any deterministic franchise-keyed tie-break.  The same
roster and the same set of entries, fed in the two possible map orders,
produce the two opposite ranked orders; in the first run "VAN" precedes
"BOS", so in particular no franchise-code-ascending rule is applied. -/
theorem ranking_tie_order_counterexample :
    ((aggregate
        [(("a").toList, ⟨("A").toList, 3, 1⟩), (("b").toList, ⟨("B").toList, 3, 1⟩)]
        [(("a").toList, "VAN"), (("b").toList, "BOS")]).1.map
          (fun x => teamKey x.2) = [(4, 3), (4, 3)]) ∧
    ((aggregate
        [(("a").toList, ⟨("A").toList, 3, 1⟩), (("b").toList, ⟨("B").toList, 3, 1⟩)]
        [(("a").toList, "VAN"), (("b").toList, "BOS")]).1.map Prod.fst =
      ["VAN", "BOS"]) ∧
    ((aggregate
        [(("b").toList, ⟨("B").toList, 3, 1⟩), (("a").toList, ⟨("A").toList, 3, 1⟩)]
        [(("a").toList, "VAN"), (("b").toList, "BOS")]).1.map Prod.fst =
      ["BOS", "VAN"]) := by
  decide

/-- Amended claim C4: both tied franchises appear in the ranked sequence
(it is a permutation of the team dict), and among franchises with an equal
`(points, goals)` key the ranked order is exactly the team dict's insertion
(first-touch) order — the stable sort applies no further tie-break key. -/
theorem ranking_ties_keep_insertion_order (ss : List (Key × StatsEntry))
    (roster : List (Key × String)) :
    (aggregate ss roster).1.Perm (aggState ss roster).teams ∧
    ∀ K : Nat × Nat,
      (aggregate ss roster).1.filter (fun y => decide (teamKey y.2 = K)) =
        (aggState ss roster).teams.filter (fun y => decide (teamKey y.2 = K)) :=
  ⟨sortTeamsDesc_perm (aggState ss roster).teams,
   fun K => filter_sortTeamsDesc K (aggState ss roster).teams⟩

/-- Claim C9: the aggregation step is a pure function of its two input maps;
in this embedding every run is the value `aggregate ss roster`, so any two
runs on a fixed pair of inputs return equal ranked and unmatched outputs. -/
theorem aggregate_deterministic (ss : List (Key × StatsEntry))
    (roster : List (Key × String))
    (out₁ out₂ : List (String × TeamStats) × List UnmatchedPlayer)
    (h₁ : aggregate ss roster = out₁) (h₂ : aggregate ss roster = out₂) :
    out₁ = out₂ := by
  rw [← h₁, h₂]

/-- Witness for C9: two runs on the one-scorer input give the same output. -/
theorem aggregate_deterministic_witness :
    (([("EDM", ⟨8, 3, 5, [⟨("Connor McDavid").toList, 3, 5, 8⟩]⟩)], []) :
        List (String × TeamStats) × List UnmatchedPlayer) =
      ([("EDM", ⟨8, 3, 5, [⟨("Connor McDavid").toList, 3, 5, 8⟩]⟩)], []) :=
  aggregate_deterministic
    [(("connor mcdavid").toList, ⟨("Connor McDavid").toList, 3, 5⟩)]
    [(("connor mcdavid").toList, "EDM")] _ _ (by decide) (by decide)

/-! ### Claim theorems: building the SourceStatsMap -/

/-- Claim C8: a key's merged entry carries the summed goals and assists of
all raw records normalizing to it; in particular a single occurrence yields
exactly that record's goals and assists. -/
theorem merged_entry_sums_on_collision (countries : List (List RawPlayer))
    (k : Key) (e : StatsEntry)
    (h : alookup k (buildSourceStats countries) = some e) :
    e.goals = sumGoals (occurrences k countries.flatten) ∧
    e.assists = sumAssists (occurrences k countries.flatten) ∧
    ∀ p : RawPlayer, occurrences k countries.flatten = [p] →
      e.goals = p.goals ∧ e.assists = p.assists := by
  rw [buildSourceStats_eq_flatten, foldl_mergePlayer] at h
  have hnone : alookup k ([] : List (Key × StatsEntry)) = none := rfl
  rw [hnone] at h
  cases hocc : occurrences k countries.flatten with
  | nil => rw [hocc] at h; simp at h
  | cons p rest =>
      rw [hocc] at h
      simp at h
      subst h
      refine ⟨by simp [sumGoals], by simp [sumAssists], ?_⟩
      intro q hq
      obtain ⟨hq1, hq2⟩ := List.cons.inj hq
      subst hq1
      subst hq2
      simp [sumGoals, sumAssists]

/-- Witness for C8 at the spec's collision scenario: the same player listed
by two nations with different capitalization; the merged entry sums 2+1
goals and 1+4 assists. -/
theorem merged_entry_sums_on_collision_witness :
    (⟨("Connor McDavid").toList, 3, 5⟩ : StatsEntry).goals =
      sumGoals (occurrences ("connor mcdavid").toList
        ([[⟨("Connor McDavid").toList, 2, 1⟩], [⟨("CONNOR MCDAVID").toList, 1, 4⟩]] :
          List (List RawPlayer)).flatten) ∧
    (⟨("Connor McDavid").toList, 3, 5⟩ : StatsEntry).assists =
      sumAssists (occurrences ("connor mcdavid").toList
        ([[⟨("Connor McDavid").toList, 2, 1⟩], [⟨("CONNOR MCDAVID").toList, 1, 4⟩]] :
          List (List RawPlayer)).flatten) ∧
    ∀ p : RawPlayer,
      occurrences ("connor mcdavid").toList
        ([[⟨("Connor McDavid").toList, 2, 1⟩], [⟨("CONNOR MCDAVID").toList, 1, 4⟩]] :
          List (List RawPlayer)).flatten = [p] →
      (⟨("Connor McDavid").toList, 3, 5⟩ : StatsEntry).goals = p.goals ∧
      (⟨("Connor McDavid").toList, 3, 5⟩ : StatsEntry).assists = p.assists :=
  merged_entry_sums_on_collision
    [[⟨("Connor McDavid").toList, 2, 1⟩], [⟨("CONNOR MCDAVID").toList, 1, 4⟩]]
    (("connor mcdavid").toList) ⟨("Connor McDavid").toList, 3, 5⟩ (by decide)

/-- Claim C10: on a key collision the merged entry keeps the first
occurrence's display name; later occurrences only contribute their goals
and assists. -/
theorem merged_entry_keeps_first_display_name
    (countries : List (List RawPlayer)) (k : Key) (e : StatsEntry)
    (p : RawPlayer) (rest : List RawPlayer)
    (h : alookup k (buildSourceStats countries) = some e)
    (hocc : occurrences k countries.flatten = p :: rest) :
    e.name = p.name := by
  rw [buildSourceStats_eq_flatten, foldl_mergePlayer] at h
  have hnone : alookup k ([] : List (Key × StatsEntry)) = none := rfl
  rw [hnone, hocc] at h
  simp at h
  subst h
  rfl

/-- Witness for C10 at the collision scenario: the merged display name is
the first listing's "Connor McDavid", not the second's capitalization. -/
theorem merged_entry_keeps_first_display_name_witness :
    (⟨("Connor McDavid").toList, 3, 5⟩ : StatsEntry).name =
      (⟨("Connor McDavid").toList, 2, 1⟩ : RawPlayer).name :=
  merged_entry_keeps_first_display_name
    [[⟨("Connor McDavid").toList, 2, 1⟩], [⟨("CONNOR MCDAVID").toList, 1, 4⟩]]
    (("connor mcdavid").toList) ⟨("Connor McDavid").toList, 3, 5⟩
    ⟨("Connor McDavid").toList, 2, 1⟩ [⟨("CONNOR MCDAVID").toList, 1, 4⟩]
    (by decide) (by decide)

/-! ### Claim theorems: the name normalizer -/

/-- Stage 1 of the spec's normalizer algorithm: decompose the input into
canonical decomposed Unicode form. -/
def specDecompose (s : List Char) : List Char := (s.map nfdDecomp).flatten

/-- Stage 2 of the spec's normalizer algorithm: drop all characters
classified as combining marks (accent and diacritic marks). -/
def specStripMarks (s : List Char) : List Char := s.filter (fun c => !(isMn c))

/-- Stage 3 of the spec's normalizer algorithm: lowercase the result. -/
def specLowercase (s : List Char) : List Char := s.map lowerChar

/-- Stage 4 of the spec's normalizer algorithm: split on runs of whitespace
and rejoin with single spaces, trimming leading and trailing whitespace. -/
def specCollapseWs (s : List Char) : List Char := joinWords (splitWs s)

/-- The normalizer as the spec states it: the four stages in order. -/
def normalize_spec (s : List Char) : List Char :=
  specCollapseWs (specLowercase (specStripMarks (specDecompose s)))

/-- Claim C5: `normalize_name` computes exactly the spec's four-stage
algorithm, and the three example spellings of the same name give the same
key, namely "leo dube". -/
theorem normalize_name_matches_spec :
    (∀ s : List Char, normalize_name s = normalize_spec s) ∧
    normalize_name ("Léo Dubé").toList = normalize_name ("LEO DUBE").toList ∧
    normalize_name ("LEO DUBE").toList = normalize_name ("leo   dube").toList ∧
    normalize_name ("Léo Dubé").toList = ("leo dube").toList :=
  ⟨fun _ => rfl, by decide, by decide, by decide⟩

/-- Claim C7: the normalizer performs no token reordering: the two token
orders of the same name produce different keys. -/
theorem normalize_name_no_token_reordering :
    normalize_name ("Cassidy Klein").toList ≠
      normalize_name ("KLEIN Cassidy").toList ∧
    normalize_name ("Cassidy Klein").toList = ("cassidy klein").toList ∧
    normalize_name ("KLEIN Cassidy").toList = ("klein cassidy").toList := by
  refine ⟨by decide, by decide, by decide⟩

/-! ### Character-level facts for idempotence -/

/-- Every character produced by an NFD decomposition is itself NFD-stable
(canonical decomposition is idempotent). -/
theorem nfdDecomp_stable_of_mem {c d : Char} (h : d ∈ nfdDecomp c) :
    nfdDecomp d = [d] := by
  unfold nfdDecomp at h
  cases hc : alookup c nfdTable with
  | none =>
      rw [hc] at h
      simp at h
      subst h
      simp [nfdDecomp, hc]
  | some l =>
      rw [hc] at h
      simp at h
      have hm := mem_of_alookup_eq_some hc
      have hfact : ∀ q ∈ nfdTable, ∀ d ∈ q.2, alookup d nfdTable = none := by
        decide
      simp [nfdDecomp, hfact (c, l) hm d h]

/-- No table entry decomposes to its own singleton. -/
theorem nfdDecomp_eq_singleton_iff (c : Char) :
    nfdDecomp c = [c] ↔ alookup c nfdTable = none := by
  constructor
  · intro h
    cases hc : alookup c nfdTable with
    | none => rfl
    | some l =>
        unfold nfdDecomp at h
        rw [hc] at h
        simp at h
        have hne : ∀ q ∈ nfdTable, q.2 ≠ [q.1] := by decide
        exact absurd h (hne (c, l) (mem_of_alookup_eq_some hc))
  · intro h
    simp [nfdDecomp, h]

/-- Lowercasing an NFD-stable character yields an NFD-stable character. -/
theorem nfdDecomp_lowerChar_stable {c : Char} (h : nfdDecomp c = [c]) :
    nfdDecomp (lowerChar c) = [lowerChar c] := by
  unfold lowerChar
  cases hc : alookup c lowerTable with
  | none => simpa using h
  | some v =>
      simp only [Option.getD_some]
      have hm := mem_of_alookup_eq_some hc
      have hfact : ∀ q ∈ lowerTable,
          alookup q.1 nfdTable ≠ none ∨ alookup q.2 nfdTable = none := by decide
      rcases hfact (c, v) hm with hk | hv
      · exact absurd ((nfdDecomp_eq_singleton_iff c).mp h) hk
      · simp [nfdDecomp, hv]

/-- Lowercasing never creates or destroys a combining mark. -/
theorem isMn_lowerChar (c : Char) : isMn (lowerChar c) = isMn c := by
  unfold lowerChar
  cases hc : alookup c lowerTable with
  | none => rfl
  | some v =>
      simp only [Option.getD_some]
      have hm := mem_of_alookup_eq_some hc
      have hfact : ∀ q ∈ lowerTable, isMn q.1 = false ∧ isMn q.2 = false := by
        decide
      obtain ⟨h1, h2⟩ := hfact (c, v) hm
      rw [h1, h2]

/-- Lowercasing is idempotent on characters. -/
theorem lowerChar_idem (c : Char) : lowerChar (lowerChar c) = lowerChar c := by
  unfold lowerChar
  cases hc : alookup c lowerTable with
  | none => simp [lowerChar, hc]
  | some v =>
      simp only [Option.getD_some]
      have hm := mem_of_alookup_eq_some hc
      have hfact : ∀ q ∈ lowerTable, alookup q.2 lowerTable = none := by decide
      simp [lowerChar, hfact (c, v) hm]

/-! ### Splitting and joining words -/

/-- Soundness of the splitter: every produced word is nonempty, made of
non-whitespace characters, and made of characters of the accumulator or of
the input. -/
theorem splitWsAux_sound :
    ∀ (s acc : List Char), (∀ c ∈ acc, isWs c = false) →
      ∀ w ∈ splitWsAux s acc,
        w ≠ [] ∧ ∀ c ∈ w, (c ∈ acc ∨ c ∈ s) ∧ isWs c = false := by
  intro s
  induction s with
  | nil =>
      intro acc hacc w hw
      rw [splitWsAux] at hw
      by_cases hae : acc.isEmpty
      · simp [hae] at hw
      · simp [hae] at hw
        subst hw
        have haccne : acc ≠ [] := fun h0 => by simp [h0] at hae
        refine ⟨by simpa using haccne, ?_⟩
        intro c hc
        rw [List.mem_reverse] at hc
        exact ⟨Or.inl hc, hacc c hc⟩
  | cons c0 cs ih =>
      intro acc hacc w hw
      rw [splitWsAux] at hw
      by_cases hws : isWs c0 = true
      · rw [if_pos hws] at hw
        by_cases hae : acc.isEmpty
        · rw [if_pos hae] at hw
          obtain ⟨h1, h2⟩ := ih [] (by simp) w hw
          refine ⟨h1, ?_⟩
          intro c hc
          obtain ⟨hmem, hnws⟩ := h2 c hc
          rcases hmem with hmem | hmem
          · simp at hmem
          · exact ⟨Or.inr (List.mem_cons_of_mem _ hmem), hnws⟩
        · rw [if_neg hae] at hw
          rcases List.mem_cons.mp hw with hw | hw
          · subst hw
            have haccne : acc ≠ [] := fun h0 => by simp [h0] at hae
            refine ⟨by simpa using haccne, ?_⟩
            intro c hc
            rw [List.mem_reverse] at hc
            exact ⟨Or.inl hc, hacc c hc⟩
          · obtain ⟨h1, h2⟩ := ih [] (by simp) w hw
            refine ⟨h1, ?_⟩
            intro c hc
            obtain ⟨hmem, hnws⟩ := h2 c hc
            rcases hmem with hmem | hmem
            · simp at hmem
            · exact ⟨Or.inr (List.mem_cons_of_mem _ hmem), hnws⟩
      · rw [if_neg hws] at hw
        have hacc' : ∀ c ∈ c0 :: acc, isWs c = false := by
          intro c hc
          rcases List.mem_cons.mp hc with hc | hc
          · subst hc
            simpa using hws
          · exact hacc c hc
        obtain ⟨h1, h2⟩ := ih (c0 :: acc) hacc' w hw
        refine ⟨h1, ?_⟩
        intro c hc
        obtain ⟨hmem, hnws⟩ := h2 c hc
        rcases hmem with hmem | hmem
        · rcases List.mem_cons.mp hmem with hc0 | hmem
          · subst hc0
            exact ⟨Or.inr (List.mem_cons_self ..), hnws⟩
          · exact ⟨Or.inl hmem, hnws⟩
        · exact ⟨Or.inr (List.mem_cons_of_mem _ hmem), hnws⟩

/-- Every word of a split is nonempty, whitespace-free and drawn from the
input string's characters. -/
theorem splitWs_sound (s : List Char) :
    ∀ w ∈ splitWs s, w ≠ [] ∧ ∀ c ∈ w, c ∈ s ∧ isWs c = false := by
  intro w hw
  obtain ⟨h1, h2⟩ := splitWsAux_sound s [] (by simp) w hw
  refine ⟨h1, ?_⟩
  intro c hc
  obtain ⟨hmem, hnws⟩ := h2 c hc
  rcases hmem with hmem | hmem
  · simp at hmem
  · exact ⟨hmem, hnws⟩

/-- Scanning a whitespace-free block just accumulates it. -/
theorem splitWsAux_append_word :
    ∀ (w rest acc : List Char), (∀ c ∈ w, isWs c = false) →
      splitWsAux (w ++ rest) acc = splitWsAux rest (w.reverse ++ acc) := by
  intro w
  induction w with
  | nil => intro rest acc _; simp
  | cons c w ih =>
      intro rest acc h
      have hc : isWs c = false := h c (List.mem_cons_self ..)
      rw [List.cons_append, splitWsAux, if_neg (by simp [hc])]
      rw [ih rest (c :: acc) (fun d hd => h d (List.mem_cons_of_mem _ hd))]
      simp

/-- Splitting is a left inverse of joining on lists of nonempty,
whitespace-free words. -/
theorem splitWs_joinWords :
    ∀ ws : List (List Char),
      (∀ w ∈ ws, w ≠ [] ∧ ∀ c ∈ w, isWs c = false) →
      splitWs (joinWords ws) = ws := by
  intro ws
  induction ws with
  | nil => intro _; rfl
  | cons w ws ih =>
      intro h
      obtain ⟨hwne, hwc⟩ := h w (List.mem_cons_self ..)
      have hrevne : w.reverse.isEmpty = false := by
        rw [List.isEmpty_eq_false_iff_exists_mem]
        obtain ⟨c, hc⟩ := List.exists_mem_of_ne_nil w hwne
        exact ⟨c, List.mem_reverse.mpr hc⟩
      cases ws with
      | nil =>
          show splitWs (joinWords [w]) = [w]
          have hx := splitWsAux_append_word w [] [] hwc
          unfold splitWs
          simp only [joinWords]
          rw [show w ++ ([] : List Char) = w from by simp] at hx
          rw [hx, splitWsAux]
          simp [hrevne]
      | cons w2 ws2 =>
          show splitWs (w ++ ' ' :: joinWords (w2 :: ws2)) = w :: w2 :: ws2
          unfold splitWs
          rw [splitWsAux_append_word w _ [] hwc, splitWsAux,
              if_pos (by decide : isWs ' ' = true)]
          simp only [List.append_nil, hrevne, if_neg Bool.false_ne_true,
            List.reverse_reverse]
          have hih := ih (fun v hv => h v (List.mem_cons_of_mem _ hv))
          unfold splitWs at hih
          rw [hih]

/-- The characters of a joined word list are its words' characters and the
single-space separator. -/
theorem mem_joinWords :
    ∀ (ws : List (List Char)) (c : Char), c ∈ joinWords ws →
      c = ' ' ∨ ∃ w ∈ ws, c ∈ w := by
  intro ws
  induction ws with
  | nil => intro c hc; simp [joinWords] at hc
  | cons w ws ih =>
      intro c hc
      cases ws with
      | nil =>
          simp only [joinWords] at hc
          exact Or.inr ⟨w, List.mem_cons_self .., hc⟩
      | cons w2 ws2 =>
          simp only [joinWords] at hc
          rcases List.mem_append.mp hc with hc | hc
          · exact Or.inr ⟨w, List.mem_cons_self .., hc⟩
          · rcases List.mem_cons.mp hc with hc | hc
            · exact Or.inl hc
            · rcases ih c hc with hsp | ⟨v, hv, hcv⟩
              · exact Or.inl hsp
              · exact Or.inr ⟨v, List.mem_cons_of_mem _ hv, hcv⟩

theorem flatten_map_nfd_of_stable (t : List Char)
    (h : ∀ c ∈ t, nfdDecomp c = [c]) : (t.map nfdDecomp).flatten = t := by
  induction t with
  | nil => rfl
  | cons c t ih =>
      simp only [List.map_cons, List.flatten_cons]
      rw [h c (List.mem_cons_self ..), ih (fun d hd => h d (List.mem_cons_of_mem _ hd))]
      rfl

theorem map_lower_of_fixed (t : List Char)
    (h : ∀ c ∈ t, lowerChar c = c) : t.map lowerChar = t := by
  induction t with
  | nil => rfl
  | cons c t ih =>
      simp only [List.map_cons]
      rw [h c (List.mem_cons_self ..), ih (fun d hd => h d (List.mem_cons_of_mem _ hd))]

/-- Claim C6: the normalizer is idempotent. -/
theorem normalize_name_idempotent (s : List Char) :
    normalize_name (normalize_name s) = normalize_name s := by
  have hu : ∀ c ∈ (((s.map nfdDecomp).flatten.filter
      (fun c => !(isMn c))).map lowerChar),
      nfdDecomp c = [c] ∧ isMn c = false ∧ lowerChar c = c := by
    intro c hc
    rcases List.mem_map.mp hc with ⟨d, hd, rfl⟩
    obtain ⟨hdj, hdm⟩ := List.mem_filter.mp hd
    rcases List.mem_flatten.mp hdj with ⟨l, hl, hdl⟩
    rcases List.mem_map.mp hl with ⟨e, _, rfl⟩
    have hstable := nfdDecomp_stable_of_mem hdl
    have hmn : isMn d = false := by simpa using hdm
    exact ⟨nfdDecomp_lowerChar_stable hstable,
      by rw [isMn_lowerChar]; exact hmn, lowerChar_idem d⟩
  set u := (((s.map nfdDecomp).flatten.filter (fun c => !(isMn c))).map lowerChar)
    with hu_def
  have hwords := splitWs_sound u
  have ht : ∀ c ∈ joinWords (splitWs u),
      nfdDecomp c = [c] ∧ isMn c = false ∧ lowerChar c = c := by
    intro c hc
    rcases mem_joinWords (splitWs u) c hc with hsp | ⟨w, hw, hcw⟩
    · subst hsp
      refine ⟨by decide, by decide, by decide⟩
    · exact hu c ((hwords w hw).2 c hcw).1
  have hnorm : normalize_name s = joinWords (splitWs u) := rfl
  rw [hnorm]
  show joinWords (splitWs (((((joinWords (splitWs u)).map nfdDecomp).flatten).filter
      (fun c => !(isMn c))).map lowerChar)) = joinWords (splitWs u)
  rw [flatten_map_nfd_of_stable _ (fun c hc => (ht c hc).1)]
  rw [List.filter_eq_self.mpr (fun c hc => by simp [(ht c hc).2.1])]
  rw [map_lower_of_fixed _ (fun c hc => (ht c hc).2.2)]
  rw [splitWs_joinWords (splitWs u)
    (fun w hw => ⟨(hwords w hw).1, fun c hc => ((hwords w hw).2 c hc).2⟩)]
